import Mathlib

/-!
Shallow embedding of `src/explore/src/frontier_search.cpp` (namespace
`frontier_exploration`), the frontier-detection and ranking core of the
repository.

Conventions of the embedding:
* Machine doubles are idealised as exact rationals (`ℚ`) for all stored
  coordinates and as exact reals (`ℝ`) for derived Euclidean distances.
* The map collaborator (`costmap_2d::Costmap2D`) and the neighbourhood
  helpers of `explore/costmap_tools.h` are not part of `src/`; they are
  modelled from the spec (grid↔world conversion with resolution and origin,
  4- and 8-connected in-bounds neighbourhoods, nearest-free-cell BFS).
* The C++ code stores `min_distance` as a `double` initialised to `+∞` and
  only ever (a) compares freshly computed Euclidean distances against it and
  (b) overwrites it by such a distance.  The embedding tracks the squared
  distance as an `Option ℚ` (`none` = `+∞`); since `Real.sqrt` is strictly
  monotone on nonnegatives, comparing squared distances is equivalent to the
  source's comparison of the distances themselves.  The real-valued distance
  is recovered by `Frontier.minDistanceE`.
* The two BFS loops use explicit fuel `size_x*size_y + 1`.  Every cell is
  enqueued at most once (it is flag-marked exactly when enqueued), so the
  queue drains within that many pops and the fuelled loop computes exactly
  what the C++ `while (!bfs.empty())` loop computes.
-/

/- Batteries marks the `Rat` field operations `@[irreducible]`, which blocks
elaborator-level evaluation of concrete runs of the (otherwise computable)
search pipeline.  Reducibility attributes do not affect the kernel; restoring
the default lets `decide` evaluate concrete grids. -/
set_option allowUnsafeReducibility true in
attribute [semireducible] Rat.add Rat.mul Rat.sub Rat.div Rat.inv Rat.neg

namespace FrontierSim

/-! ### Cell classification constants (costmap_2d/cost_values.h) -/

def FREE_SPACE : ℕ := 0

def LETHAL_OBSTACLE : ℕ := 254

def NO_INFORMATION : ℕ := 255

/-! ### The map collaborator.  Modelled from the spec: GridMap is external
(§1, §6); it provides cell classification lookup by index, grid size, and
grid-index ↔ grid-coordinate ↔ world-coordinate conversion using resolution
and origin, plus a world-to-grid bounds check. -/

structure Costmap where
  size_x : ℕ
  size_y : ℕ
  origin_x : ℚ
  origin_y : ℚ
  resolution : ℚ
  cells : List ℕ

def Costmap.cell (m : Costmap) (i : ℕ) : ℕ := m.cells.getD i 0

def Costmap.ncells (m : Costmap) : ℕ := m.size_x * m.size_y

/-- Modelled from the spec: row-major flat index of a grid coordinate. -/
def getIndex (m : Costmap) (mx my : ℕ) : ℕ := my * m.size_x + mx

/-- Modelled from the spec: grid coordinate of a flat index. -/
def indexToCells (m : Costmap) (i : ℕ) : ℕ × ℕ := (i % m.size_x, i / m.size_x)

/-- Modelled from the spec: world coordinates of the centre of a grid cell,
via the map's resolution and origin. -/
def mapToWorld (m : Costmap) (mx my : ℕ) : ℚ × ℚ :=
  (m.origin_x + (mx + 1 / 2) * m.resolution, m.origin_y + (my + 1 / 2) * m.resolution)

/-- World coordinates of the centre of the cell with flat index `i`. -/
def worldOfIdx (m : Costmap) (i : ℕ) : ℚ × ℚ :=
  mapToWorld m (indexToCells m i).1 (indexToCells m i).2

/-- Modelled from the spec: world-to-grid conversion with bounds check
(fails when the position does not map to valid grid coordinates). -/
def worldToMap (m : Costmap) (wx wy : ℚ) : Option (ℕ × ℕ) :=
  if wx < m.origin_x ∨ wy < m.origin_y then none
  else
    let mx := (⌊(wx - m.origin_x) / m.resolution⌋).toNat
    let my := (⌊(wy - m.origin_y) / m.resolution⌋).toNat
    if mx < m.size_x ∧ my < m.size_y then some (mx, my) else none

/-- Modelled from the spec: the 4 edge-adjacent in-bounds neighbours of a
cell (explore/costmap_tools.h `nhood4`, an external helper of this file). -/
def nhood4 (m : Costmap) (idx : ℕ) : List ℕ :=
  if m.ncells ≤ idx then []
  else
    (if 0 < idx % m.size_x then [idx - 1] else []) ++
    (if idx % m.size_x < m.size_x - 1 then [idx + 1] else []) ++
    (if m.size_x ≤ idx then [idx - m.size_x] else []) ++
    (if idx < m.size_x * (m.size_y - 1) then [idx + m.size_x] else [])

/-- Modelled from the spec: the 8 edge+corner-adjacent in-bounds neighbours
of a cell (explore/costmap_tools.h `nhood8`). -/
def nhood8 (m : Costmap) (idx : ℕ) : List ℕ :=
  nhood4 m idx ++
  (if m.ncells ≤ idx then []
   else
    (if 0 < idx % m.size_x ∧ m.size_x ≤ idx then [idx - 1 - m.size_x] else []) ++
    (if 0 < idx % m.size_x ∧ idx < m.size_x * (m.size_y - 1) then [idx - 1 + m.size_x]
     else []) ++
    (if idx % m.size_x < m.size_x - 1 ∧ m.size_x ≤ idx then [idx + 1 - m.size_x] else []) ++
    (if idx % m.size_x < m.size_x - 1 ∧ idx < m.size_x * (m.size_y - 1) then
      [idx + 1 + m.size_x]
     else []))

/-! ### The Frontier record (explore/frontier_search.h) and configuration -/

/-- The unit of output (struct `Frontier`).  `sq_min_distance` tracks the
square of the C++ `min_distance` field, with `none` standing for its `+∞`
initial value; all other fields correspond one to one. -/
structure Frontier where
  size : ℕ
  sq_min_distance : Option ℚ
  cost : EReal
  initial : ℚ × ℚ
  centroid : ℚ × ℚ
  middle : ℚ × ℚ
  points : List (ℚ × ℚ)

/-- Constructor parameters of `FrontierSearch` (frontier_search.cpp lines 21-29). -/
structure SearchCfg where
  potential_scale : ℚ
  gain_scale : ℚ
  min_frontier_size : ℚ

/-- Squared Euclidean distance between two world points; the source computes
`sqrt(pow(ax - bx, 2.0) + pow(ay - by, 2.0))` of this quantity. -/
def sqDist (a b : ℚ × ℚ) : ℚ := (a.1 - b.1) ^ 2 + (a.2 - b.2) ^ 2

/-- The all-but-cost fields of a frontier, bundled with decidable equality so
that concrete runs of the (computable) region search can be evaluated. -/
structure FrontierStats where
  initial : ℚ × ℚ
  centroid : ℚ × ℚ
  middle : ℚ × ℚ
  sq_min_distance : Option ℚ
  size : ℕ
  points : List (ℚ × ℚ)
deriving DecidableEq

def Frontier.stats (f : Frontier) : FrontierStats :=
  ⟨f.initial, f.centroid, f.middle, f.sq_min_distance, f.size, f.points⟩

/-- The member world points of a frontier: the initial contact point together
with the points discovered by the region BFS. -/
def Frontier.memberPoints (f : Frontier) : List (ℚ × ℚ) := f.initial :: f.points

/-! ### Flag arrays.  The C++ code uses `std::vector<bool>` arrays of length
`size_x * size_y`; the algorithm only ever indexes them with in-bounds cell
indices (the `nhood` helpers filter out-of-bounds neighbours), so they are
modelled as total boolean functions on cell indices. -/

/-- A flag array with every flag clear. -/
def noFlags : ℕ → Bool := fun _ => false

/-- Set one flag. -/
def setFlag (fl : ℕ → Bool) (n : ℕ) : ℕ → Bool := fun j => if j = n then true else fl j

/-! ### isNewFrontierCell (frontier_search.cpp lines 176-193) -/

/-- A cell qualifies as a new frontier cell when it is `NO_INFORMATION`, not
already frontier-flagged, and has at least one `FREE_SPACE` 4-neighbour. -/
def isNewFrontierCell (m : Costmap) (idx : ℕ) (frontier_flag : ℕ → Bool) : Bool :=
  if m.cell idx ≠ NO_INFORMATION ∨ frontier_flag idx then false
  else (nhood4 m idx).any (fun nbr => m.cell nbr == FREE_SPACE)

/-! ### buildNewFrontier (frontier_search.cpp lines 101-174) -/

/-- One neighbour test of the region-growing BFS (lines 132-166): an accepted
cell is frontier-flagged, appended to `points`, folded into size/centroid,
compared against the running minimum distance (squared-distance comparison,
see the header note), and enqueued. -/
def buildStep (m : Costmap) (refw : ℚ × ℚ)
    (st : Frontier × (ℕ → Bool) × List ℕ) (nbr : ℕ) : Frontier × (ℕ → Bool) × List ℕ :=
  let f := st.1
  let flags := st.2.1
  let adds := st.2.2
  if isNewFrontierCell m nbr flags then
    let w := worldOfIdx m nbr
    let sq := sqDist refw w
    let better : Bool := match f.sq_min_distance with
      | none => true
      | some d => decide (sq < d)
    ({ f with
        points := f.points ++ [w]
        size := f.size + 1
        centroid := (f.centroid.1 + w.1, f.centroid.2 + w.2)
        sq_min_distance := if better then some sq else f.sq_min_distance
        middle := if better then w else f.middle },
      setFlag flags nbr, adds ++ [nbr])
  else (f, flags, adds)

/-- The region-growing BFS loop (lines 127-168), with fuel (see header note). -/
def buildLoop (m : Costmap) (refw : ℚ × ℚ) :
    ℕ → List ℕ → Frontier → (ℕ → Bool) → Frontier × (ℕ → Bool)
  | 0, _, f, flags => (f, flags)
  | _ + 1, [], f, flags => (f, flags)
  | fuel + 1, idx :: q, f, flags =>
    let r := (nhood8 m idx).foldl (buildStep m refw) (f, flags, [])
    buildLoop m refw fuel (q ++ r.2.2) r.1 r.2.1

/-- `FrontierSearch::buildNewFrontier` (lines 101-174): grows one region from
`initial_cell`, whose flag the caller has already set, and finally divides
the centroid accumulator by the final size. -/
def buildNewFrontier (m : Costmap) (initial_cell reference : ℕ)
    (frontier_flag : ℕ → Bool) : Frontier × (ℕ → Bool) :=
  let f0 : Frontier :=
    { size := 1, sq_min_distance := none, cost := 0,
      initial := worldOfIdx m initial_cell, centroid := (0, 0), middle := (0, 0),
      points := [] }
  let refw := worldOfIdx m reference
  let r := buildLoop m refw (m.ncells + 1) [initial_cell] f0 frontier_flag
  ({ r.1 with centroid := (r.1.centroid.1 / r.1.size, r.1.centroid.2 / r.1.size) }, r.2)

/-! ### nearestCell (explore/costmap_tools.h, external helper).
Modelled from the spec (§4.1): a bounded BFS locating the closest
`FREE_SPACE` cell to a seed, or "not found". -/

def nearestLoop (m : Costmap) (val : ℕ) : ℕ → List ℕ → (ℕ → Bool) → Option ℕ
  | 0, _, _ => none
  | _ + 1, [], _ => none
  | fuel + 1, idx :: q, visited =>
    if m.cell idx = val then some idx
    else
      let r := (nhood4 m idx).foldl
        (fun (st : List ℕ × (ℕ → Bool)) nbr =>
          if st.2 nbr then st else (st.1 ++ [nbr], setFlag st.2 nbr))
        ([], visited)
      nearestLoop m val fuel (q ++ r.1) r.2

/-- Modelled from the spec (§4.1): nearest cell with value `val` to `start`. -/
def nearestCell (m : Costmap) (start val : ℕ) : Option ℕ :=
  if m.ncells ≤ start then none
  else nearestLoop m val (m.ncells + 1) [start]
    (setFlag noFlags start)

/-! ### The outward classifier loop of searchFrom (lines 66-88) -/

/-- One neighbour test of the outer BFS (lines 71-87): free descent admits the
neighbour into the traversal, otherwise a qualifying frontier seed is flagged,
grown by `buildNewFrontier`, and kept when it passes the minimum-size test. -/
def outerStep (m : Costmap) (min_frontier_size : ℚ) (pos : ℕ) (idx : ℕ)
    (st : (ℕ → Bool) × (ℕ → Bool) × List Frontier × List ℕ) (nbr : ℕ) :
    (ℕ → Bool) × (ℕ → Bool) × List Frontier × List ℕ :=
  let visited := st.1
  let fflag := st.2.1
  let acc := st.2.2.1
  let adds := st.2.2.2
  if m.cell nbr ≤ m.cell idx ∧ visited nbr = false then
    (setFlag visited nbr, fflag, acc, adds ++ [nbr])
  else if isNewFrontierCell m nbr fflag then
    let r := buildNewFrontier m nbr pos (setFlag fflag nbr)
    if min_frontier_size ≤ r.1.size * m.resolution then
      (visited, r.2, acc ++ [r.1], adds)
    else (visited, r.2, acc, adds)
  else (visited, fflag, acc, adds)

/-- The outer BFS loop of `searchFrom` (lines 66-88), with fuel. -/
def searchLoop (m : Costmap) (min_frontier_size : ℚ) (pos : ℕ) :
    ℕ → List ℕ → (ℕ → Bool) → (ℕ → Bool) → List Frontier → List Frontier
  | 0, _, _, _, acc => acc
  | _ + 1, [], _, _, acc => acc
  | fuel + 1, idx :: q, visited, fflag, acc =>
    let r := (nhood4 m idx).foldl (outerStep m min_frontier_size pos idx)
      (visited, fflag, acc, [])
    searchLoop m min_frontier_size pos fuel (q ++ r.2.2.2) r.1 r.2.1 r.2.2.1

/-- Lines 31-88 of `searchFrom`: the retained frontier regions, in discovery
order, before costs are assigned and the list is sorted. -/
def searchFromRegions (m : Costmap) (min_frontier_size : ℚ) (pos : ℚ × ℚ) :
    List Frontier :=
  match worldToMap m pos.1 pos.2 with
  | none => []
  | some c =>
    let p := getIndex m c.1 c.2
    let seed := (nearestCell m p FREE_SPACE).getD p
    searchLoop m min_frontier_size p (m.ncells + 1) [seed]
      (setFlag noFlags seed) noFlags []

/-! ### The Cost Model: frontierCost (frontier_search.cpp lines 229-281) -/

/-- The avoid point hard-coded in `frontierCost` (lines 234-235):
`human_x = -2.91756; human_y = -5.26284;` written as exact fractions. -/
def humanPoint : ℚ × ℚ := (-291756 / 100000, -526284 / 100000)

/-- The process-lifetime static state of `frontierCost` (lines 240-241):
`static double weight = 0; static bool flag = 0;`.  The embedding threads it
explicitly through each score evaluation. -/
structure CostState where
  weight : ℚ
  flag : Bool
deriving DecidableEq

/-- The value of the static state at process start. -/
def initialCostState : CostState := ⟨0, false⟩

/-- Euclidean distance between two rational world points, as a real number:
`sqrt(pow(ax - bx, 2.0) + pow(ay - by, 2.0))`. -/
noncomputable def distR (a b : ℚ × ℚ) : ℝ := Real.sqrt ((sqDist a b : ℚ) : ℝ)

/-- The update of the static weight/flag state performed at the start of each
score evaluation (lines 254-261): `robot_human < 3.0` forces `weight = 0`;
otherwise `robot_human < 6.0 && flag == 0` sets `weight = 3` and latches
`flag = 1`; otherwise the state is unchanged. -/
noncomputable def updateWeight (pose : ℚ × ℚ) (s : CostState) : CostState :=
  if distR humanPoint pose < 3 then { s with weight := 0 }
  else if distR humanPoint pose < 6 ∧ s.flag = false then { weight := 3, flag := true }
  else s

/-- `updateWeight` with the two band tests carried out on squared distances;
equal to `updateWeight` by strict monotonicity of `Real.sqrt` (see
`updateWeight_eq_sq`), and evaluable on concrete inputs. -/
def updateWeightSq (pose : ℚ × ℚ) (s : CostState) : CostState :=
  if sqDist humanPoint pose < 9 then { s with weight := 0 }
  else if sqDist humanPoint pose < 36 ∧ s.flag = false then { weight := 3, flag := true }
  else s

/-- The `min_distance` field as stored by the C++ code: a real Euclidean
distance, `+∞` while no region member has been folded in. -/
noncomputable def Frontier.minDistanceE (f : Frontier) : EReal :=
  match f.sq_min_distance with
  | none => ⊤
  | some q => ((Real.sqrt ((q : ℚ) : ℝ) : ℝ) : EReal)

/-- `FrontierSearch::frontierCost` (lines 229-281).  The Gaussian noise
sample drawn at lines 266-271 (zero mean, standard deviation 0.2, freshly
drawn on every evaluation) enters as the oracle input `noiseV`; the static
weight/flag state enters and leaves explicitly.  The result is
`potential_scale_ * min_distance * resolution - gain_scale_ * size * resolution
+ weight * (frontier_human + noise) * resolution`, in `EReal` because
`min_distance` may be `+∞`. -/
noncomputable def frontierCost (m : Costmap) (cfg : SearchCfg) (f : Frontier)
    (pose : ℚ × ℚ) (noiseV : ℝ) (s : CostState) : EReal × CostState :=
  let s' := updateWeight pose s
  let frontier_human : ℝ := distR humanPoint f.middle + noiseV
  (((cfg.potential_scale : ℝ) : EReal) * f.minDistanceE * ((m.resolution : ℝ) : EReal) -
      (((cfg.gain_scale : ℝ) * (f.size : ℝ) * (m.resolution : ℝ) : ℝ) : EReal) +
      (((s'.weight : ℝ) * frontier_human * (m.resolution : ℝ) : ℝ) : EReal),
    s')

/-- Lines 90-93 of `searchFrom`: assign a cost to each retained frontier in
discovery order, threading the static state and drawing a fresh noise sample
(`noise k`, `noise (k+1)`, ...) for every evaluation. -/
noncomputable def assignCosts (m : Costmap) (cfg : SearchCfg) (pose : ℚ × ℚ)
    (noise : ℕ → ℝ) : ℕ → List Frontier → CostState → List Frontier × CostState
  | _, [], s => ([], s)
  | k, f :: fs, s =>
    let r := frontierCost m cfg f pose (noise k) s
    let rest := assignCosts m cfg pose noise (k + 1) fs r.2
    ({ f with cost := r.1 } :: rest.1, rest.2)

/-- The comparator of the final sort (lines 94-96), as a non-strict order so
that sortedness is "non-decreasing cost". -/
def costLE (f g : Frontier) : Prop := f.cost ≤ g.cost

noncomputable instance : DecidableRel costLE :=
  fun f g => inferInstanceAs (Decidable (f.cost ≤ g.cost))

/-- Lines 94-96: sort the costed list by cost.  `std::sort` is an unspecified
unstable sort; the spec leaves tie order unspecified, so the embedding uses
insertion sort by non-decreasing cost. -/
noncomputable def sortByCost (l : List Frontier) : List Frontier :=
  List.insertionSort costLE l

/-- The two diagnostics of the search (lines 38 and 62). -/
inductive Diag where
  | outOfBounds
  | noClearCell
deriving DecidableEq

/-- The observable outcome of one `searchFrom` call: the returned list, the
static cost-model state after the call, and the emitted diagnostics. -/
structure SearchResult where
  frontiers : List Frontier
  state : CostState
  diags : List Diag

/-- `FrontierSearch::searchFrom` (lines 31-99): bounds check (out of bounds
returns an empty list and an error diagnostic before any traversal), seed
selection via `nearestCell` (warning on failure), the outward BFS building
and filtering regions, cost assignment, and the final sort. -/
noncomputable def searchFrom (m : Costmap) (cfg : SearchCfg) (pos : ℚ × ℚ)
    (noise : ℕ → ℝ) (s : CostState) : SearchResult :=
  match worldToMap m pos.1 pos.2 with
  | none => ⟨[], s, [Diag.outOfBounds]⟩
  | some c =>
    let p := getIndex m c.1 c.2
    let regions := searchFromRegions m cfg.min_frontier_size pos
    let r := assignCosts m cfg pos noise 0 regions s
    ⟨sortByCost r.1, r.2, if (nearestCell m p FREE_SPACE).isNone then [Diag.noClearCell] else []⟩

/-! ### Specification-side folds, used to state what the region builder
accumulates (sums of coordinates; the running minimum-distance/middle pair). -/

/-- Sum of the x coordinates of a list of world points. -/
def sumX (l : List (ℚ × ℚ)) : ℚ := (l.map Prod.fst).sum

/-- Sum of the y coordinates of a list of world points. -/
def sumY (l : List (ℚ × ℚ)) : ℚ := (l.map Prod.snd).sum

/-- One step of the running minimum-distance/middle fold, mirroring lines
156-162 of the source on the squared-distance representation. -/
def minStep (refw : ℚ × ℚ) (acc : Option ℚ × (ℚ × ℚ)) (p : ℚ × ℚ) :
    Option ℚ × (ℚ × ℚ) :=
  let sq := sqDist refw p
  let better : Bool := match acc.1 with
    | none => true
    | some d => decide (sq < d)
  (if better then some sq else acc.1, if better then p else acc.2)

/-- The running minimum-distance/middle pair over a list of member points,
starting from the initial state `(+∞, (0, 0))`. -/
def minFold (refw : ℚ × ℚ) (l : List (ℚ × ℚ)) : Option ℚ × (ℚ × ℚ) :=
  l.foldl (minStep refw) (none, (0, 0))

/-- The reference world point `buildNewFrontier` measures distances from: the
centre of the robot's grid cell (`reference = pos` at line 81, converted back
to world coordinates at lines 122-125). -/
def refPoint (m : Costmap) (pos : ℚ × ℚ) : ℚ × ℚ :=
  match worldToMap m pos.1 pos.2 with
  | none => (0, 0)
  | some c => worldOfIdx m (getIndex m c.1 c.2)

/-- The relation the region-growing loop maintains between a frontier's
running statistics and its points list: the size counts the points plus the
seeded initial cell, the centroid accumulator holds the coordinate sums of
the points, and the minimum-distance/middle pair is the fold of the points. -/
def BuildInv (refw : ℚ × ℚ) (f : Frontier) : Prop :=
  f.size = f.points.length + 1 ∧
  f.centroid = (sumX f.points, sumY f.points) ∧
  (f.sq_min_distance, f.middle) = minFold refw f.points

/-- What holds of every frontier returned by `buildNewFrontier`: as
`BuildInv`, with the centroid accumulator divided by the final size. -/
def PostBuild (refw : ℚ × ℚ) (f : Frontier) : Prop :=
  f.size = f.points.length + 1 ∧
  f.centroid = (sumX f.points / ((f.points.length : ℚ) + 1),
    sumY f.points / ((f.points.length : ℚ) + 1)) ∧
  (f.sq_min_distance, f.middle) = minFold refw f.points

/-- What holds of every region the outer search loop retains. -/
def RegionProp (m : Costmap) (minsz : ℚ) (refw : ℚ × ℚ) (f : Frontier) : Prop :=
  PostBuild refw f ∧ minsz ≤ (f.size : ℚ) * m.resolution

/-- Two member-point lists with no common point. -/
def PtsDisjoint (P Q : List (ℚ × ℚ)) : Prop := ∀ p ∈ P, p ∉ Q

/-- The invariant tying the outer loop's retained regions to the shared
frontier-flag array: member-point lists are pairwise disjoint, and every
member point is the world point of a currently-flagged cell. -/
def DisjInv (m : Costmap) (acc : List Frontier) (ff : ℕ → Bool) : Prop :=
  List.Pairwise (fun f g => PtsDisjoint f.memberPoints g.memberPoints) acc ∧
  ∀ f ∈ acc, ∀ p ∈ f.memberPoints, ∃ i, p = worldOfIdx m i ∧ ff i = true

/-! ### Concrete inputs used by witnesses and counterexamples -/

/-- A 3×3 grid, origin (0,0), resolution 1; free everywhere except an unknown
2-cell vertical strip at indices 2 and 5 (grid column x = 2, rows y = 0, 1). -/
def mapA : Costmap :=
  { size_x := 3, size_y := 3, origin_x := 0, origin_y := 0, resolution := 1,
    cells := [0, 0, 255, 0, 0, 255, 0, 0, 0] }

/-- A 3×3 grid, free everywhere except the single unknown centre cell. -/
def mapB : Costmap :=
  { size_x := 3, size_y := 3, origin_x := 0, origin_y := 0, resolution := 1,
    cells := [0, 0, 0, 0, 255, 0, 0, 0, 0] }

def cfgA : SearchCfg := { potential_scale := 1, gain_scale := 1, min_frontier_size := 1 }

/-- Robot position inside cell (0,0) of `mapA`/`mapB`. -/
def posA : ℚ × ℚ := (1 / 2, 1 / 2)

/-- A position outside the bounds of `mapA`. -/
def posOut : ℚ × ℚ := (-5, -5)

/-- A fixed (zero) noise stream. -/
noncomputable def noiseA : ℕ → ℝ := fun _ => 0

/-- Robot pose at Euclidean distance 4 from the avoid point (far band [3,6)). -/
def poseFarA : ℚ × ℚ := (humanPoint.1 + 4, humanPoint.2)

/-- Robot pose at Euclidean distance 1 from the avoid point (near band, < 3). -/
def poseNearA : ℚ × ℚ := (humanPoint.1 + 1, humanPoint.2)

/-- Robot pose at Euclidean distance 10 from the avoid point (≥ 6: no band). -/
def poseAwayA : ℚ × ℚ := (humanPoint.1 + 10, humanPoint.2)

/-- A default frontier record (used only to state concrete projections). -/
def plainFrontier : Frontier :=
  { size := 1, sq_min_distance := none, cost := 0, initial := (0, 0),
    centroid := (0, 0), middle := (0, 0), points := [] }

/-- The single region `searchFromRegions` discovers on `mapA` from `posA`:
seeded at cell 2, one further member cell 5. -/
def regionA : Frontier :=
  { size := 2, sq_min_distance := some 5, cost := 0, initial := (5 / 2, 1 / 2),
    centroid := (5 / 4, 3 / 4), middle := (5 / 2, 3 / 2), points := [(5 / 2, 3 / 2)] }

/-- `regionA` with the cost `searchFrom` assigns to it. -/
noncomputable def frontA : Frontier :=
  { regionA with cost := (frontierCost mapA cfgA regionA posA (noiseA 0) initialCostState).1 }

/-- The single region `searchFromRegions` discovers on `mapB` from `posA`:
the isolated unknown centre cell 4, with no member beyond the seed. -/
def regionB : Frontier :=
  { size := 1, sq_min_distance := none, cost := 0, initial := (3 / 2, 3 / 2),
    centroid := (0, 0), middle := (0, 0), points := [] }

/-- `regionB` with the cost `searchFrom` assigns to it. -/
noncomputable def frontB : Frontier :=
  { regionB with cost := (frontierCost mapB cfgA regionB posA (noiseA 0) initialCostState).1 }

/-! ## Lemmas bridging real distances and their squares -/

theorem sqDist_nonneg (a b : ℚ × ℚ) : 0 ≤ sqDist a b := by
  unfold sqDist; positivity

theorem distR_lt_iff {a b : ℚ × ℚ} {c : ℚ} (hc : 0 < c) :
    distR a b < (c : ℝ) ↔ sqDist a b < c ^ 2 := by
  unfold distR
  rw [Real.sqrt_lt' (by exact_mod_cast hc)]
  exact_mod_cast Iff.rfl

theorem le_distR_iff {a b : ℚ × ℚ} {c : ℚ} (hc : 0 ≤ c) :
    (c : ℝ) ≤ distR a b ↔ c ^ 2 ≤ sqDist a b := by
  unfold distR
  rw [Real.le_sqrt (by exact_mod_cast hc) (by exact_mod_cast sqDist_nonneg a b)]
  exact_mod_cast Iff.rfl

/-- The weight/flag update of `frontierCost`, with both band comparisons
reduced to the (evaluable) squared-distance comparisons. -/
theorem updateWeight_eq_sq (pose : ℚ × ℚ) (s : CostState) :
    updateWeight pose s = updateWeightSq pose s := by
  have h3 : distR humanPoint pose < 3 ↔ sqDist humanPoint pose < 9 := by
    have h := distR_lt_iff (a := humanPoint) (b := pose) (c := 3) (by norm_num)
    norm_num at h
    exact h
  have h6 : distR humanPoint pose < 6 ↔ sqDist humanPoint pose < 36 := by
    have h := distR_lt_iff (a := humanPoint) (b := pose) (c := 6) (by norm_num)
    norm_num at h
    exact h
  unfold updateWeight updateWeightSq
  simp only [h3, h6]

theorem frontierCost_state (m : Costmap) (cfg : SearchCfg) (f : Frontier)
    (pose : ℚ × ℚ) (noiseV : ℝ) (s : CostState) :
    (frontierCost m cfg f pose noiseV s).2 = updateWeight pose s := rfl

/-! ## C2: the sticky weight state machine -/

/-- C2 counterexample: the claim asserts that after the evaluation sequence
far band (weight becomes 3), near band (weight forced to 0), far band again,
the third far-band score evaluation uses weight 3.  On the code, once the
flag is latched the `weight = 3` branch (guarded by `flag == 0`) can never
fire again, so the third evaluation uses weight 0, not 3.  The poses are at
Euclidean distances 4 (far band), 1 (near band), 4 from the avoid point. -/
theorem c2_counterexample :
    (3 : ℝ) ≤ distR humanPoint poseFarA ∧ distR humanPoint poseFarA < 6 ∧
    distR humanPoint poseNearA < 3 ∧
    (frontierCost mapA cfgA plainFrontier poseFarA 0 initialCostState).2.weight = 3 ∧
    (frontierCost mapA cfgA plainFrontier poseNearA 0
      (frontierCost mapA cfgA plainFrontier poseFarA 0 initialCostState).2).2.weight = 0 ∧
    (frontierCost mapA cfgA plainFrontier poseFarA 0
      (frontierCost mapA cfgA plainFrontier poseNearA 0
        (frontierCost mapA cfgA plainFrontier poseFarA 0 initialCostState).2).2).2.weight
      = 0 ∧
    (0 : ℚ) ≠ 3 := by
  have hfar1 : (3 : ℝ) ≤ distR humanPoint poseFarA := by
    have h := (le_distR_iff (a := humanPoint) (b := poseFarA) (c := 3) (by norm_num)).2
      (by decide)
    norm_num at h
    exact h
  have hfar2 : distR humanPoint poseFarA < 6 := by
    have h := (distR_lt_iff (a := humanPoint) (b := poseFarA) (c := 6) (by norm_num)).2
      (by decide)
    norm_num at h
    exact h
  have hnear : distR humanPoint poseNearA < 3 := by
    have h := (distR_lt_iff (a := humanPoint) (b := poseNearA) (c := 3) (by norm_num)).2
      (by decide)
    norm_num at h
    exact h
  refine ⟨hfar1, hfar2, hnear, ?_, ?_, ?_, by norm_num⟩ <;>
    simp only [frontierCost_state, updateWeight_eq_sq] <;> decide

/-- C2 (amended): the weight is a process-lifetime two-valued state starting
at 0; an evaluation with distance(avoidPoint, robotPose) < 3 forces it to 0
(leaving the flag unchanged); an evaluation with that distance in [3,6) while
the flag is unlatched sets the weight to 3 and latches the flag; and once the
flag is latched every evaluation outside the near band leaves the state
unchanged — in particular, after a near-band evaluation has forced the weight
to 0, later far-band evaluations keep it at 0 rather than reverting to 3. -/
theorem c2_amended :
    (initialCostState.weight = 0 ∧ initialCostState.flag = false) ∧
    (∀ (m : Costmap) (cfg : SearchCfg) (f : Frontier) (pose : ℚ × ℚ) (n : ℝ)
      (s : CostState), distR humanPoint pose < 3 →
      (frontierCost m cfg f pose n s).2 = { s with weight := 0 }) ∧
    (∀ (m : Costmap) (cfg : SearchCfg) (f : Frontier) (pose : ℚ × ℚ) (n : ℝ)
      (s : CostState), (3 : ℝ) ≤ distR humanPoint pose → distR humanPoint pose < 6 →
      s.flag = false → (frontierCost m cfg f pose n s).2 = ⟨3, true⟩) ∧
    (∀ (m : Costmap) (cfg : SearchCfg) (f : Frontier) (pose : ℚ × ℚ) (n : ℝ)
      (s : CostState), (3 : ℝ) ≤ distR humanPoint pose → s.flag = true →
      (frontierCost m cfg f pose n s).2 = s) := by
  refine ⟨⟨rfl, rfl⟩, ?_, ?_, ?_⟩
  · intro m cfg f pose n s h
    rw [frontierCost_state]
    unfold updateWeight
    rw [if_pos h]
  · intro m cfg f pose n s h3 h6 hflag
    rw [frontierCost_state]
    unfold updateWeight
    rw [if_neg (not_lt.2 h3), if_pos ⟨h6, hflag⟩]
  · intro m cfg f pose n s h3 hflag
    rw [frontierCost_state]
    unfold updateWeight
    rw [if_neg (not_lt.2 h3), if_neg]
    intro hc
    rw [hflag] at hc
    exact absurd hc.2 (by simp)

theorem c2_amended_witness :
    (distR humanPoint poseNearA < 3 ∧
      (frontierCost mapA cfgA plainFrontier poseNearA 0 ⟨3, true⟩).2 =
        { weight := 0, flag := true }) ∧
    ((3 : ℝ) ≤ distR humanPoint poseFarA ∧ distR humanPoint poseFarA < 6 ∧
      (frontierCost mapA cfgA plainFrontier poseFarA 0 initialCostState).2 = ⟨3, true⟩) ∧
    ((3 : ℝ) ≤ distR humanPoint poseFarA ∧
      (frontierCost mapA cfgA plainFrontier poseFarA 0 ⟨0, true⟩).2 = ⟨0, true⟩) := by
  have hnear : distR humanPoint poseNearA < 3 := by
    have h := (distR_lt_iff (a := humanPoint) (b := poseNearA) (c := 3) (by norm_num)).2
      (by decide)
    norm_num at h
    exact h
  have hfar1 : (3 : ℝ) ≤ distR humanPoint poseFarA := by
    have h := (le_distR_iff (a := humanPoint) (b := poseFarA) (c := 3) (by norm_num)).2
      (by decide)
    norm_num at h
    exact h
  have hfar2 : distR humanPoint poseFarA < 6 := by
    have h := (distR_lt_iff (a := humanPoint) (b := poseFarA) (c := 6) (by norm_num)).2
      (by decide)
    norm_num at h
    exact h
  exact ⟨⟨hnear, c2_amended.2.1 mapA cfgA plainFrontier poseNearA 0 ⟨3, true⟩ hnear⟩,
    ⟨hfar1, hfar2,
      c2_amended.2.2.1 mapA cfgA plainFrontier poseFarA 0 initialCostState hfar1 hfar2 rfl⟩,
    ⟨hfar1, c2_amended.2.2.2 mapA cfgA plainFrontier poseFarA 0 ⟨0, true⟩ hfar1 rfl⟩⟩

/-! ## C5: the cost formula -/

/-- C5: for every score evaluation, the returned cost equals
`potentialScale * minDistance * resolution - gainScale * size * resolution
+ weight * (distance(avoidPoint, middlePoint) + noise) * resolution`, where
the avoid point is the fixed world coordinate (-2.91756, -5.26284), `noise`
is the oracle sample drawn fresh for this evaluation, and `weight` is the
post-update sticky weight.  (The Gaussian distribution of the sample — mean
0, standard deviation 0.2, lines 242-243 — lives outside the embedding; the
sample enters as the input `noiseV`.) -/
theorem c5_cost_formula (m : Costmap) (cfg : SearchCfg) (f : Frontier)
    (pose : ℚ × ℚ) (noiseV : ℝ) (s : CostState) :
    (frontierCost m cfg f pose noiseV s).1 =
      ((cfg.potential_scale : ℝ) : EReal) * f.minDistanceE * ((m.resolution : ℝ) : EReal) -
        (((cfg.gain_scale : ℝ) * (f.size : ℝ) * (m.resolution : ℝ) : ℝ) : EReal) +
        ((((updateWeight pose s).weight : ℝ) *
            (distR (-291756 / 100000, -526284 / 100000) f.middle + noiseV) *
            (m.resolution : ℝ) : ℝ) : EReal) ∧
    humanPoint = (-291756 / 100000, -526284 / 100000) := ⟨rfl, rfl⟩

/-! ## C8: out-of-bounds origin -/

/-- C8: when the origin does not map to valid grid coordinates, `searchFrom`
returns the empty frontier list, leaves the cost-model state untouched
(no traversal is performed), and emits exactly the error diagnostic. -/
theorem c8_out_of_bounds (m : Costmap) (cfg : SearchCfg) (pos : ℚ × ℚ)
    (noise : ℕ → ℝ) (s : CostState) (h : worldToMap m pos.1 pos.2 = none) :
    searchFrom m cfg pos noise s = ⟨[], s, [Diag.outOfBounds]⟩ := by
  unfold searchFrom
  rw [h]

theorem c8_out_of_bounds_witness :
    worldToMap mapA posOut.1 posOut.2 = none ∧
    searchFrom mapA cfgA posOut noiseA initialCostState =
      ⟨[], initialCostState, [Diag.outOfBounds]⟩ :=
  ⟨by decide, c8_out_of_bounds mapA cfgA posOut noiseA initialCostState (by decide)⟩

/-! ## C9: deterministic replay -/

theorem assignCosts_state_fix (m : Costmap) (cfg : SearchCfg) (pose : ℚ × ℚ)
    (noise : ℕ → ℝ) (s : CostState) (h : updateWeight pose s = s) :
    ∀ (fs : List Frontier) (k : ℕ), (assignCosts m cfg pose noise k fs s).2 = s := by
  intro fs
  induction fs with
  | nil => intro k; rfl
  | cons f fs ih =>
    intro k
    show (assignCosts m cfg pose noise (k + 1) fs
      (frontierCost m cfg f pose (noise k) s).2).2 = s
    rw [frontierCost_state, h]
    exact ih (k + 1)

/-- C9: with the noise oracle held fixed and the cost-model state a fixed
point of the weight update at the given pose ("sticky bias weight held
constant"), a `searchFrom` call leaves the state unchanged, and replaying the
call on identical map state and robot position — starting from the state the
first call left behind — produces the identical result: same frontiers, same
order, same costs, same diagnostics. -/
theorem c9_deterministic_replay (m : Costmap) (cfg : SearchCfg) (pos : ℚ × ℚ)
    (noise : ℕ → ℝ) (s : CostState) (h : updateWeight pos s = s) :
    (searchFrom m cfg pos noise s).state = s ∧
    searchFrom m cfg pos noise ((searchFrom m cfg pos noise s).state) =
      searchFrom m cfg pos noise s := by
  have hstate : (searchFrom m cfg pos noise s).state = s := by
    unfold searchFrom
    cases hw : worldToMap m pos.1 pos.2 with
    | none => rfl
    | some c => exact assignCosts_state_fix m cfg pos noise s h _ 0
  exact ⟨hstate, by rw [hstate]⟩

theorem c9_witness :
    updateWeight posA initialCostState = initialCostState ∧
    (searchFrom mapA cfgA posA noiseA initialCostState).state = initialCostState ∧
    searchFrom mapA cfgA posA noiseA
        ((searchFrom mapA cfgA posA noiseA initialCostState).state) =
      searchFrom mapA cfgA posA noiseA initialCostState := by
  have hfix : updateWeight posA initialCostState = initialCostState := by
    rw [updateWeight_eq_sq]; decide
  exact ⟨hfix,
    (c9_deterministic_replay mapA cfgA posA noiseA initialCostState hfix).1,
    (c9_deterministic_replay mapA cfgA posA noiseA initialCostState hfix).2⟩

/-! ## Sorting and membership transport -/

theorem sortByCost_sorted (l : List Frontier) : List.Sorted costLE (sortByCost l) := by
  haveI : IsTotal Frontier costLE := ⟨fun a b => le_total a.cost b.cost⟩
  haveI : IsTrans Frontier costLE := ⟨fun a b c h1 h2 => le_trans h1 h2⟩
  exact List.sorted_insertionSort costLE l

theorem sortByCost_perm (l : List Frontier) : (sortByCost l).Perm l :=
  List.perm_insertionSort costLE l

/-- Projecting away the cost: all the statistics fields agree. -/
theorem stats_fields {f g : Frontier} (h : f.stats = g.stats) :
    f.initial = g.initial ∧ f.centroid = g.centroid ∧ f.middle = g.middle ∧
    f.sq_min_distance = g.sq_min_distance ∧ f.size = g.size ∧ f.points = g.points := by
  cases f
  cases g
  simpa [Frontier.stats, FrontierStats.mk.injEq] using h

theorem memberPoints_of_stats {f g : Frontier} (h : f.stats = g.stats) :
    f.memberPoints = g.memberPoints := by
  obtain ⟨h1, _, _, _, _, h6⟩ := stats_fields h
  unfold Frontier.memberPoints
  rw [h1, h6]

/-- Cost assignment changes no statistics field. -/
theorem assignCosts_map_stats (m : Costmap) (cfg : SearchCfg) (pose : ℚ × ℚ)
    (noise : ℕ → ℝ) :
    ∀ (fs : List Frontier) (k : ℕ) (s : CostState),
      (assignCosts m cfg pose noise k fs s).1.map Frontier.stats = fs.map Frontier.stats := by
  intro fs
  induction fs with
  | nil => intro k s; rfl
  | cons f fs ih =>
    intro k s
    show Frontier.stats { f with cost := _ } :: _ = _
    rw [List.map_cons]
    exact congrArg (_ :: ·) (ih (k + 1) _)

/-- Every frontier in an assigned-cost list has the statistics of a frontier
of the input list. -/
theorem mem_assignCosts (m : Costmap) (cfg : SearchCfg) (pose : ℚ × ℚ)
    (noise : ℕ → ℝ) :
    ∀ (fs : List Frontier) (k : ℕ) (s : CostState) (f : Frontier),
      f ∈ (assignCosts m cfg pose noise k fs s).1 →
      ∃ g ∈ fs, f.stats = g.stats := by
  intro fs
  induction fs with
  | nil => intro k s f hf; exact absurd hf (by simp [assignCosts])
  | cons g fs ih =>
    intro k s f hf
    rcases List.mem_cons.1 hf with h | h
    · exact ⟨g, List.mem_cons_self g fs, by rw [h]; rfl⟩
    · obtain ⟨g', hg', he⟩ := ih (k + 1) _ f h
      exact ⟨g', List.mem_cons_of_mem g hg', he⟩

/-- Every returned frontier has the statistics of a region discovered by the
pre-cost search (lines 31-88). -/
theorem mem_searchFrom_regions (m : Costmap) (cfg : SearchCfg) (pos : ℚ × ℚ)
    (noise : ℕ → ℝ) (s : CostState) (f : Frontier)
    (hf : f ∈ (searchFrom m cfg pos noise s).frontiers) :
    ∃ g ∈ searchFromRegions m cfg.min_frontier_size pos, f.stats = g.stats := by
  unfold searchFrom at hf
  cases hw : worldToMap m pos.1 pos.2 with
  | none => rw [hw] at hf; exact absurd hf (by simp)
  | some c =>
    rw [hw] at hf
    simp only [sortByCost, List.mem_insertionSort] at hf
    exact mem_assignCosts m cfg pos noise _ 0 s f hf

/-! ## C7: the returned sequence is sorted by non-decreasing cost -/

/-- C7: the frontier list `searchFrom` returns is sorted by non-decreasing
cost, and it is a permutation of the cost-assigned retained regions (costs
are attached to every retained frontier before, and preserved by, the
sort). -/
theorem c7_sorted_by_cost (m : Costmap) (cfg : SearchCfg) (pos : ℚ × ℚ)
    (noise : ℕ → ℝ) (s : CostState) :
    List.Sorted costLE (searchFrom m cfg pos noise s).frontiers ∧
    (searchFrom m cfg pos noise s).frontiers.Perm
      (assignCosts m cfg pos noise 0 (searchFromRegions m cfg.min_frontier_size pos) s).1 := by
  unfold searchFrom
  cases hw : worldToMap m pos.1 pos.2 with
  | none =>
    constructor
    · exact List.sorted_nil
    · unfold searchFromRegions
      rw [hw]
      exact List.Perm.refl _
  | some c => exact ⟨sortByCost_sorted _, sortByCost_perm _⟩

/-! ## The region-builder invariant -/

theorem sumX_append (l : List (ℚ × ℚ)) (p : ℚ × ℚ) : sumX (l ++ [p]) = sumX l + p.1 := by
  simp [sumX]

theorem sumY_append (l : List (ℚ × ℚ)) (p : ℚ × ℚ) : sumY (l ++ [p]) = sumY l + p.2 := by
  simp [sumY]

theorem minFold_append (refw : ℚ × ℚ) (l : List (ℚ × ℚ)) (p : ℚ × ℚ) :
    minFold refw (l ++ [p]) = minStep refw (minFold refw l) p := by
  simp [minFold, List.foldl_append]

theorem buildStep_inv (m : Costmap) (refw : ℚ × ℚ)
    (st : Frontier × (ℕ → Bool) × List ℕ) (nbr : ℕ) (h : BuildInv refw st.1) :
    BuildInv refw (buildStep m refw st nbr).1 := by
  obtain ⟨h1, h2, h3⟩ := h
  unfold buildStep
  by_cases hc : isNewFrontierCell m nbr st.2.1 = true
  · rw [if_pos hc]
    refine ⟨?_, ?_, ?_⟩
    · simp [h1]
    · simp only [sumX_append, sumY_append, h2, h1]
    · rw [minFold_append, ← h3]
      rfl
  · rw [if_neg hc]
    exact ⟨h1, h2, h3⟩

theorem buildFold_inv (m : Costmap) (refw : ℚ × ℚ) :
    ∀ (ns : List ℕ) (st : Frontier × (ℕ → Bool) × List ℕ), BuildInv refw st.1 →
      BuildInv refw ((ns.foldl (buildStep m refw) st).1) := by
  intro ns
  induction ns with
  | nil => intro st h; exact h
  | cons n ns ih => intro st h; exact ih _ (buildStep_inv m refw st n h)

theorem buildLoop_inv (m : Costmap) (refw : ℚ × ℚ) :
    ∀ (fuel : ℕ) (q : List ℕ) (f : Frontier) (flags : ℕ → Bool), BuildInv refw f →
      BuildInv refw (buildLoop m refw fuel q f flags).1 := by
  intro fuel
  induction fuel with
  | zero => intro q f flags h; exact h
  | succ fuel ih =>
    intro q f flags h
    cases q with
    | nil => exact h
    | cons idx q =>
      show BuildInv refw (buildLoop m refw fuel _ _ _).1
      exact ih _ _ _ (buildFold_inv m refw (nhood8 m idx) (f, flags, []) h)

theorem buildNewFrontier_post (m : Costmap) (init ref : ℕ) (flags : ℕ → Bool) :
    PostBuild (worldOfIdx m ref) (buildNewFrontier m init ref flags).1 := by
  have h0 : BuildInv (worldOfIdx m ref)
      { size := 1, sq_min_distance := none, cost := 0, initial := worldOfIdx m init,
        centroid := (0, 0), middle := (0, 0), points := [] } := ⟨rfl, rfl, rfl⟩
  obtain ⟨h1, h2, h3⟩ := buildLoop_inv m (worldOfIdx m ref) (m.ncells + 1) [init] _ flags h0
  unfold PostBuild
  simp only [buildNewFrontier]
  refine ⟨h1, ?_, h3⟩
  rw [h2, h1]
  push_cast
  rfl

/-! ## What the minimum-distance fold computes -/

theorem minFold_spec (refw : ℚ × ℚ) (l : List (ℚ × ℚ)) :
    (l = [] ∧ minFold refw l = (none, (0, 0))) ∨
    ((minFold refw l).2 ∈ l ∧
      (minFold refw l).1 = some (sqDist refw (minFold refw l).2) ∧
      ∀ p ∈ l, sqDist refw (minFold refw l).2 ≤ sqDist refw p) := by
  induction l using List.reverseRecOn with
  | nil => exact Or.inl ⟨rfl, rfl⟩
  | append_singleton l p ih =>
    right
    rcases ih with ⟨hl, he⟩ | ⟨hmem, heq, hmin⟩
    · subst hl
      rw [minFold_append, he]
      refine ⟨by simp [minStep], by simp [minStep], ?_⟩
      intro q hq
      rw [List.nil_append, List.mem_singleton] at hq
      subst hq
      simp [minStep]
    · rw [minFold_append]
      by_cases hlt : sqDist refw p < sqDist refw (minFold refw l).2
      · have hstep : minStep refw (minFold refw l) p = (some (sqDist refw p), p) := by
          unfold minStep
          rw [heq]
          simp [hlt]
        rw [hstep]
        refine ⟨by simp, rfl, ?_⟩
        intro q hq
        rcases List.mem_append.1 hq with hq | hq
        · exact le_of_lt (lt_of_lt_of_le hlt (hmin q hq))
        · rw [List.mem_singleton] at hq
          subst hq
          exact le_refl _
      · have hstep : minStep refw (minFold refw l) p = minFold refw l := by
          unfold minStep
          rw [heq]
          simp only [decide_eq_true_eq, hlt, if_false, ite_false]
          rw [← heq]
        rw [hstep]
        refine ⟨List.mem_append_left _ hmem, heq, ?_⟩
        intro q hq
        rcases List.mem_append.1 hq with hq | hq
        · exact hmin q hq
        · rw [List.mem_singleton] at hq
          subst hq
          exact le_of_not_lt hlt

/-! ## The outer-loop invariant: every retained region satisfies `RegionProp` -/

theorem outerStep_prop (m : Costmap) (minsz : ℚ) (pos idx : ℕ)
    (st : (ℕ → Bool) × (ℕ → Bool) × List Frontier × List ℕ) (nbr : ℕ)
    (h : ∀ f ∈ st.2.2.1, RegionProp m minsz (worldOfIdx m pos) f) :
    ∀ f ∈ (outerStep m minsz pos idx st nbr).2.2.1,
      RegionProp m minsz (worldOfIdx m pos) f := by
  simp only [outerStep]
  split_ifs with h1 h2 h3
  · exact h
  · intro f hf
    rcases List.mem_append.1 hf with hf | hf
    · exact h f hf
    · rw [List.mem_singleton] at hf
      subst hf
      exact ⟨buildNewFrontier_post m nbr pos (setFlag st.2.1 nbr), h3⟩
  · exact h
  · exact h

theorem outerFold_prop (m : Costmap) (minsz : ℚ) (pos idx : ℕ) :
    ∀ (ns : List ℕ) (st : (ℕ → Bool) × (ℕ → Bool) × List Frontier × List ℕ),
      (∀ f ∈ st.2.2.1, RegionProp m minsz (worldOfIdx m pos) f) →
      ∀ f ∈ (ns.foldl (outerStep m minsz pos idx) st).2.2.1,
        RegionProp m minsz (worldOfIdx m pos) f := by
  intro ns
  induction ns with
  | nil => intro st h; exact h
  | cons n ns ih => intro st h; exact ih _ (outerStep_prop m minsz pos idx st n h)

theorem searchLoop_prop (m : Costmap) (minsz : ℚ) (pos : ℕ) :
    ∀ (fuel : ℕ) (q : List ℕ) (v ff : ℕ → Bool) (acc : List Frontier),
      (∀ f ∈ acc, RegionProp m minsz (worldOfIdx m pos) f) →
      ∀ f ∈ searchLoop m minsz pos fuel q v ff acc,
        RegionProp m minsz (worldOfIdx m pos) f := by
  intro fuel
  induction fuel with
  | zero => intro q v ff acc h; exact h
  | succ fuel ih =>
    intro q v ff acc h
    cases q with
    | nil => exact h
    | cons idx q =>
      show ∀ f ∈ searchLoop m minsz pos fuel _ _ _ _, _
      exact ih _ _ _ _ (outerFold_prop m minsz pos idx (nhood4 m idx) (v, ff, acc, []) h)

theorem searchFromRegions_prop (m : Costmap) (minsz : ℚ) (pos : ℚ × ℚ) :
    ∀ f ∈ searchFromRegions m minsz pos, RegionProp m minsz (refPoint m pos) f := by
  unfold searchFromRegions refPoint
  cases hw : worldToMap m pos.1 pos.2 with
  | none => intro f hf; exact absurd hf (List.not_mem_nil f)
  | some c =>
    exact searchLoop_prop m minsz (getIndex m c.1 c.2) _ _ _ _ []
      (fun f hf => absurd hf (List.not_mem_nil f))

/-- `RegionProp` only reads statistics fields. -/
theorem regionProp_of_stats {m : Costmap} {minsz : ℚ} {refw : ℚ × ℚ} {f g : Frontier}
    (h : f.stats = g.stats) (hg : RegionProp m minsz refw g) : RegionProp m minsz refw f := by
  obtain ⟨h1, h2, h3, h4, h5, h6⟩ := stats_fields h
  obtain ⟨⟨p1, p2, p3⟩, p4⟩ := hg
  exact ⟨⟨by rw [h5, h6]; exact p1, by rw [h2, h6]; exact p2,
    by rw [h4, h3, h6]; exact p3⟩, by rw [h5]; exact p4⟩

/-- Every returned frontier satisfies `RegionProp`. -/
theorem searchFrom_prop (m : Costmap) (cfg : SearchCfg) (pos : ℚ × ℚ)
    (noise : ℕ → ℝ) (s : CostState) :
    ∀ f ∈ (searchFrom m cfg pos noise s).frontiers,
      RegionProp m cfg.min_frontier_size (refPoint m pos) f := by
  intro f hf
  obtain ⟨g, hg, he⟩ := mem_searchFrom_regions m cfg pos noise s f hf
  exact regionProp_of_stats he (searchFromRegions_prop m cfg.min_frontier_size pos g hg)

/-! ## C6: the minimum-size filter -/

/-- C6: every frontier in the returned list satisfies
`size * resolution >= minFrontierSize`; regions failing the test were
discarded before cost assignment and sorting. -/
theorem c6_min_size_filter (m : Costmap) (cfg : SearchCfg) (pos : ℚ × ℚ)
    (noise : ℕ → ℝ) (s : CostState) :
    ∀ f ∈ (searchFrom m cfg pos noise s).frontiers,
      cfg.min_frontier_size ≤ (f.size : ℚ) * m.resolution :=
  fun f hf => (searchFrom_prop m cfg pos noise s f hf).2

/-! ## C1 (amended): the centroid -/

/-- C1 (amended): for every returned frontier, `size = |points| + 1` (the
initial cell is counted), but the centroid is the sum of the coordinates of
`points` alone divided by `|points| + 1`: the initial point contributes to
the denominator and not to the numerator, so the centroid is *not* the mean
of `points ∪ {initialPoint}` whenever that initial point disagrees with the
mean of the points. -/
theorem c1_amended (m : Costmap) (cfg : SearchCfg) (pos : ℚ × ℚ)
    (noise : ℕ → ℝ) (s : CostState) :
    ∀ f ∈ (searchFrom m cfg pos noise s).frontiers,
      f.size = f.points.length + 1 ∧
      f.centroid = (sumX f.points / ((f.points.length : ℚ) + 1),
        sumY f.points / ((f.points.length : ℚ) + 1)) := by
  intro f hf
  obtain ⟨⟨p1, p2, _⟩, _⟩ := searchFrom_prop m cfg pos noise s f hf
  exact ⟨p1, p2⟩

/-! ## C3 (amended): middle point and minimum distance -/

/-- C3 (amended): for every returned frontier, the minimum distance and the
middle point range over the cells appended to `points` during the region BFS
— the initial cell is *not* compared.  When `points` is empty the minimum
distance is `+∞` and the middle point is the default origin; otherwise
`middlePoint ∈ points` is a point attaining the minimum Euclidean distance
from the reference position (the robot's grid-cell centre) over `points`,
and `minDistance` is that distance. -/
theorem c3_amended (m : Costmap) (cfg : SearchCfg) (pos : ℚ × ℚ)
    (noise : ℕ → ℝ) (s : CostState) :
    ∀ f ∈ (searchFrom m cfg pos noise s).frontiers,
      (f.points = [] ∧ f.sq_min_distance = none ∧ f.middle = (0, 0) ∧
        f.minDistanceE = ⊤) ∨
      (f.middle ∈ f.points ∧
        f.sq_min_distance = some (sqDist (refPoint m pos) f.middle) ∧
        f.minDistanceE = ((Real.sqrt ((sqDist (refPoint m pos) f.middle : ℚ) : ℝ) : ℝ) : EReal) ∧
        (∀ p ∈ f.points, sqDist (refPoint m pos) f.middle ≤ sqDist (refPoint m pos) p) ∧
        (∀ p ∈ f.points, distR (refPoint m pos) f.middle ≤ distR (refPoint m pos) p)) := by
  intro f hf
  obtain ⟨⟨_, _, p3⟩, _⟩ := searchFrom_prop m cfg pos noise s f hf
  have hsq : f.sq_min_distance = (minFold (refPoint m pos) f.points).1 :=
    congrArg Prod.fst p3
  have hmid : f.middle = (minFold (refPoint m pos) f.points).2 :=
    congrArg Prod.snd p3
  rcases minFold_spec (refPoint m pos) f.points with ⟨hl, he⟩ | ⟨hmem, heq, hmin⟩
  · left
    have h1 : f.sq_min_distance = none := by rw [hsq, he]
    have h2 : f.middle = (0, 0) := by rw [hmid, he]
    refine ⟨hl, h1, h2, ?_⟩
    unfold Frontier.minDistanceE
    rw [h1]
  · right
    have h1 : f.sq_min_distance = some (sqDist (refPoint m pos) f.middle) := by
      rw [hsq, heq, hmid]
    have h2 : ∀ p ∈ f.points, sqDist (refPoint m pos) f.middle ≤ sqDist (refPoint m pos) p := by
      rw [hmid]
      exact hmin
    refine ⟨by rw [hmid]; exact hmem, h1, ?_, h2, ?_⟩
    · unfold Frontier.minDistanceE
      rw [h1]
    · intro p hp
      exact Real.sqrt_le_sqrt (by exact_mod_cast h2 p hp)

/-! ## Evaluating a one-region search -/

/-- When the pre-cost search discovers exactly one region, `searchFrom`
returns exactly that region, carrying the cost of the first noise draw. -/
theorem searchFrom_of_one_region (m : Costmap) (cfg : SearchCfg) (pos : ℚ × ℚ)
    (noise : ℕ → ℝ) (s : CostState) (g : Frontier)
    (hr : searchFromRegions m cfg.min_frontier_size pos = [g]) :
    (searchFrom m cfg pos noise s).frontiers =
      [{ g with cost := (frontierCost m cfg g pos (noise 0) s).1 }] := by
  cases hw : worldToMap m pos.1 pos.2 with
  | none =>
    exfalso
    unfold searchFromRegions at hr
    rw [hw] at hr
    exact List.cons_ne_nil g [] hr.symm
  | some c =>
    unfold searchFrom
    rw [hw]
    show sortByCost
      (assignCosts m cfg pos noise 0 (searchFromRegions m cfg.min_frontier_size pos) s).1 = _
    rw [hr]
    rfl

/-! ## C10: a region that accepts no cell beyond its seed -/

/-- C10: whenever the region BFS of `buildNewFrontier` accepts no cell beyond
the initial seed (`points = []`), the returned frontier has size 1, no stored
minimum (`minDistance = +∞`), and the default middle point (0, 0); and such a
degenerate frontier can pass the minimum-size filter and be returned by
`searchFrom` when `minFrontierSize ≤ resolution`, as the concrete run on
`mapB` (an isolated unknown cell in free space) shows. -/
theorem c10_degenerate_region :
    (∀ (m : Costmap) (init ref : ℕ) (flags : ℕ → Bool),
      (buildNewFrontier m init ref flags).1.points = [] →
      (buildNewFrontier m init ref flags).1.size = 1 ∧
      (buildNewFrontier m init ref flags).1.sq_min_distance = none ∧
      (buildNewFrontier m init ref flags).1.minDistanceE = ⊤ ∧
      (buildNewFrontier m init ref flags).1.middle = (0, 0)) ∧
    (cfgA.min_frontier_size ≤ (1 : ℚ) * mapB.resolution ∧
      (searchFrom mapB cfgA posA noiseA initialCostState).frontiers.map Frontier.stats =
        [⟨(3 / 2, 3 / 2), (0, 0), (0, 0), none, 1, []⟩]) := by
  constructor
  · intro m init ref flags hpts
    obtain ⟨p1, _, p3⟩ := buildNewFrontier_post m init ref flags
    rw [hpts] at p1 p3
    have hsq : (buildNewFrontier m init ref flags).1.sq_min_distance = none :=
      congrArg Prod.fst p3
    have hmid : (buildNewFrontier m init ref flags).1.middle = (0, 0) :=
      congrArg Prod.snd p3
    refine ⟨p1, hsq, ?_, hmid⟩
    unfold Frontier.minDistanceE
    rw [hsq]
  · refine ⟨by norm_num [cfgA, mapB], ?_⟩
    rw [searchFrom_of_one_region mapB cfgA posA noiseA initialCostState regionB rfl]
    rfl

theorem c10_degenerate_region_witness :
    (buildNewFrontier mapB 4 0 (setFlag noFlags 4)).1.points = [] ∧
    (buildNewFrontier mapB 4 0 (setFlag noFlags 4)).1.size = 1 ∧
    (buildNewFrontier mapB 4 0 (setFlag noFlags 4)).1.sq_min_distance = none ∧
    (buildNewFrontier mapB 4 0 (setFlag noFlags 4)).1.minDistanceE = ⊤ ∧
    (buildNewFrontier mapB 4 0 (setFlag noFlags 4)).1.middle = (0, 0) := by
  have hpts : (buildNewFrontier mapB 4 0 (setFlag noFlags 4)).1.points = [] := by decide
  exact ⟨hpts, c10_degenerate_region.1 mapB 4 0 (setFlag noFlags 4) hpts⟩

/-! ## C1 and C3: counterexamples and witnesses on the concrete grid -/

/-- C1 counterexample: on `mapA` the single returned frontier has
`initialPoint = (5/2, 1/2)`, `points = [(5/2, 3/2)]`, and
`centroid = (5/4, 3/4)`, whereas the mean of `points ∪ {initialPoint}` is
`((5/2 + 5/2)/2, (1/2 + 3/2)/2) = (5/2, 1)`: the claimed invariant
`centroid = mean(points ∪ {initialPoint})` fails (the initial point is never
added into the centroid accumulator). -/
theorem c1_counterexample :
    (searchFrom mapA cfgA posA noiseA initialCostState).frontiers.map Frontier.stats =
      [⟨(5 / 2, 1 / 2), (5 / 4, 3 / 4), (5 / 2, 3 / 2), some 5, 2, [(5 / 2, 3 / 2)]⟩] ∧
    ((5 : ℚ) / 4, (3 : ℚ) / 4) ≠
      (((5 / 2 : ℚ) + 5 / 2) / 2, ((1 / 2 : ℚ) + 3 / 2) / 2) := by
  constructor
  · rw [searchFrom_of_one_region mapA cfgA posA noiseA initialCostState regionA rfl]
    rfl
  · decide

theorem c1_amended_witness :
    frontA ∈ (searchFrom mapA cfgA posA noiseA initialCostState).frontiers ∧
    (frontA.size = frontA.points.length + 1 ∧
      frontA.centroid = (sumX frontA.points / ((frontA.points.length : ℚ) + 1),
        sumY frontA.points / ((frontA.points.length : ℚ) + 1))) := by
  have hmem : frontA ∈ (searchFrom mapA cfgA posA noiseA initialCostState).frontiers := by
    rw [searchFrom_of_one_region mapA cfgA posA noiseA initialCostState regionA rfl]
    exact List.mem_singleton.2 rfl
  exact ⟨hmem, c1_amended mapA cfgA posA noiseA initialCostState frontA hmem⟩

/-- C3 counterexample: on `mapA` the member cells of the single returned
frontier are the initial cell at world point (5/2, 1/2) and the point
(5/2, 3/2); the reference position is (1/2, 1/2).  The initial member is at
Euclidean distance 2 from the reference, yet the stored minimum distance is
√5 > 2 and the middle point is (5/2, 3/2) ≠ (5/2, 1/2): `minDistance` is not
the distance to the nearest member cell and `middlePoint` is not the closest
member cell once the initial cell is counted as a member. -/
theorem c3_counterexample :
    (searchFrom mapA cfgA posA noiseA initialCostState).frontiers.map Frontier.stats =
      [⟨(5 / 2, 1 / 2), (5 / 4, 3 / 4), (5 / 2, 3 / 2), some 5, 2, [(5 / 2, 3 / 2)]⟩] ∧
    refPoint mapA posA = (1 / 2, 1 / 2) ∧
    (searchFrom mapA cfgA posA noiseA initialCostState).frontiers.map Frontier.minDistanceE =
      [((Real.sqrt 5 : ℝ) : EReal)] ∧
    distR (1 / 2, 1 / 2) (5 / 2, 1 / 2) = 2 ∧
    (2 : ℝ) < Real.sqrt 5 ∧
    ((5 / 2 : ℚ), (3 / 2 : ℚ)) ≠ ((5 / 2 : ℚ), (1 / 2 : ℚ)) := by
  refine ⟨?_, by decide, ?_, ?_, ?_, by decide⟩
  · rw [searchFrom_of_one_region mapA cfgA posA noiseA initialCostState regionA rfl]
    rfl
  · rw [searchFrom_of_one_region mapA cfgA posA noiseA initialCostState regionA rfl]
    simp only [List.map_cons, List.map_nil, Frontier.minDistanceE, regionA]
    norm_num
  · unfold distR
    rw [show ((sqDist (1 / 2, 1 / 2) (5 / 2, 1 / 2) : ℚ) : ℝ) = (2 : ℝ) ^ 2 by
      norm_num [sqDist]]
    exact Real.sqrt_sq (by norm_num)
  · rw [Real.lt_sqrt (by norm_num)]
    norm_num

theorem c3_amended_witness :
    frontA ∈ (searchFrom mapA cfgA posA noiseA initialCostState).frontiers ∧
    ((frontA.points = [] ∧ frontA.sq_min_distance = none ∧ frontA.middle = (0, 0) ∧
        frontA.minDistanceE = ⊤) ∨
      (frontA.middle ∈ frontA.points ∧
        frontA.sq_min_distance = some (sqDist (refPoint mapA posA) frontA.middle) ∧
        frontA.minDistanceE =
          ((Real.sqrt ((sqDist (refPoint mapA posA) frontA.middle : ℚ) : ℝ) : ℝ) : EReal) ∧
        (∀ p ∈ frontA.points,
          sqDist (refPoint mapA posA) frontA.middle ≤ sqDist (refPoint mapA posA) p) ∧
        (∀ p ∈ frontA.points,
          distR (refPoint mapA posA) frontA.middle ≤ distR (refPoint mapA posA) p))) := by
  have hmem : frontA ∈ (searchFrom mapA cfgA posA noiseA initialCostState).frontiers := by
    rw [searchFrom_of_one_region mapA cfgA posA noiseA initialCostState regionA rfl]
    exact List.mem_singleton.2 rfl
  exact ⟨hmem, c3_amended mapA cfgA posA noiseA initialCostState frontA hmem⟩

theorem c6_min_size_filter_witness :
    frontA ∈ (searchFrom mapA cfgA posA noiseA initialCostState).frontiers ∧
    cfgA.min_frontier_size ≤ (frontA.size : ℚ) * mapA.resolution := by
  have hmem : frontA ∈ (searchFrom mapA cfgA posA noiseA initialCostState).frontiers := by
    rw [searchFrom_of_one_region mapA cfgA posA noiseA initialCostState regionA rfl]
    exact List.mem_singleton.2 rfl
  exact ⟨hmem, c6_min_size_filter mapA cfgA posA noiseA initialCostState frontA hmem⟩

/-! ## C4: no cell belongs to two returned frontiers -/

theorem setFlag_self (fl : ℕ → Bool) (n : ℕ) : setFlag fl n n = true := by
  simp [setFlag]

theorem setFlag_mono (fl : ℕ → Bool) (n i : ℕ) (h : fl i = true) : setFlag fl n i = true := by
  simp [setFlag, h]

theorem setFlag_false {fl : ℕ → Bool} {n i : ℕ} (h : setFlag fl n i = false) :
    fl i = false := by
  by_cases hc : i = n
  · have ht : setFlag fl n i = true := by simp [setFlag, hc]
    rw [ht] at h
    exact absurd h (by simp)
  · have ht : setFlag fl n i = fl i := by simp [setFlag, hc]
    rw [← ht]
    exact h

theorem isNewFrontierCell_unflagged {m : Costmap} {idx : ℕ} {ff : ℕ → Bool}
    (h : isNewFrontierCell m idx ff = true) : ff idx = false := by
  cases hb : ff idx
  · rfl
  · exfalso
    unfold isNewFrontierCell at h
    rw [if_pos (Or.inr hb)] at h
    exact absurd h (by simp)

/-- With a nonzero resolution, distinct cells have distinct world points. -/
theorem worldOfIdx_inj (m : Costmap) (hres : m.resolution ≠ 0) {i j : ℕ}
    (h : worldOfIdx m i = worldOfIdx m j) : i = j := by
  unfold worldOfIdx mapToWorld indexToCells at h
  have hx := congrArg Prod.fst h
  have hy := congrArg Prod.snd h
  simp only at hx hy
  have hx1 : (((i % m.size_x : ℕ) : ℚ) + 1 / 2) * m.resolution =
      (((j % m.size_x : ℕ) : ℚ) + 1 / 2) * m.resolution := by linarith
  have hy1 : (((i / m.size_x : ℕ) : ℚ) + 1 / 2) * m.resolution =
      (((j / m.size_x : ℕ) : ℚ) + 1 / 2) * m.resolution := by linarith
  have hx2 := mul_right_cancel₀ hres hx1
  have hy2 := mul_right_cancel₀ hres hy1
  have hm' : ((i % m.size_x : ℕ) : ℚ) = ((j % m.size_x : ℕ) : ℚ) := by linarith
  have hd' : ((i / m.size_x : ℕ) : ℚ) = ((j / m.size_x : ℕ) : ℚ) := by linarith
  have hm : i % m.size_x = j % m.size_x := Nat.cast_inj.mp hm'
  have hd : i / m.size_x = j / m.size_x := Nat.cast_inj.mp hd' 
  calc i = m.size_x * (i / m.size_x) + i % m.size_x := (Nat.div_add_mod i m.size_x).symm
    _ = m.size_x * (j / m.size_x) + j % m.size_x := by rw [hm, hd]
    _ = j := Nat.div_add_mod j m.size_x

/-- The region BFS only ever sets flags; it appends only points of cells that
were unflagged on entry and are flagged on exit; and it never changes the
initial point. -/
theorem buildStep_flags (m : Costmap) (refw : ℚ × ℚ)
    (st : Frontier × (ℕ → Bool) × List ℕ) (nbr : ℕ) :
    (∀ i, st.2.1 i = true → (buildStep m refw st nbr).2.1 i = true) ∧
    (∀ p ∈ (buildStep m refw st nbr).1.points,
      p ∈ st.1.points ∨
      ∃ i, p = worldOfIdx m i ∧ st.2.1 i = false ∧ (buildStep m refw st nbr).2.1 i = true) ∧
    (buildStep m refw st nbr).1.initial = st.1.initial := by
  unfold buildStep
  by_cases hc : isNewFrontierCell m nbr st.2.1 = true
  · rw [if_pos hc]
    refine ⟨fun i hi => setFlag_mono _ _ _ hi, ?_, rfl⟩
    intro p hp
    rcases List.mem_append.1 hp with hp | hp
    · exact Or.inl hp
    · rw [List.mem_singleton] at hp
      subst hp
      exact Or.inr ⟨nbr, rfl, isNewFrontierCell_unflagged hc, setFlag_self _ _⟩
  · rw [if_neg hc]
    exact ⟨fun i hi => hi, fun p hp => Or.inl hp, rfl⟩

/-- One-step unfolding of the region BFS loop. -/
theorem buildLoop_succ (m : Costmap) (refw : ℚ × ℚ) (fuel idx : ℕ) (q : List ℕ)
    (f : Frontier) (flags : ℕ → Bool) :
    buildLoop m refw (fuel + 1) (idx :: q) f flags =
      buildLoop m refw fuel
        (q ++ ((nhood8 m idx).foldl (buildStep m refw) (f, flags, [])).2.2)
        ((nhood8 m idx).foldl (buildStep m refw) (f, flags, [])).1
        ((nhood8 m idx).foldl (buildStep m refw) (f, flags, [])).2.1 := rfl

theorem buildFold_flags (m : Costmap) (refw : ℚ × ℚ) :
    ∀ (ns : List ℕ) (st : Frontier × (ℕ → Bool) × List ℕ),
      (∀ i, st.2.1 i = true → ((ns.foldl (buildStep m refw) st).2.1) i = true) ∧
      (∀ p ∈ (ns.foldl (buildStep m refw) st).1.points,
        p ∈ st.1.points ∨
        ∃ i, p = worldOfIdx m i ∧ st.2.1 i = false ∧
          ((ns.foldl (buildStep m refw) st).2.1) i = true) ∧
      (ns.foldl (buildStep m refw) st).1.initial = st.1.initial := by
  intro ns
  induction ns with
  | nil => intro st; exact ⟨fun i hi => hi, fun p hp => Or.inl hp, rfl⟩
  | cons n ns ih =>
    intro st
    obtain ⟨sm, sp, si⟩ := buildStep_flags m refw st n
    obtain ⟨fm, fp, fi⟩ := ih (buildStep m refw st n)
    rw [List.foldl_cons]
    refine ⟨fun i hi => fm i (sm i hi), ?_, by rw [fi, si]⟩
    intro p hp
    rcases fp p hp with hp1 | ⟨i, he, h0, h1⟩
    · rcases sp p hp1 with hp2 | ⟨i, he, h0, h1⟩
      · exact Or.inl hp2
      · exact Or.inr ⟨i, he, h0, fm i h1⟩
    · have h0' : st.2.1 i = false := by
        cases hb : st.2.1 i
        · rfl
        · exact absurd (sm i hb) (by rw [h0]; simp)
      exact Or.inr ⟨i, he, h0', h1⟩

theorem buildLoop_flags (m : Costmap) (refw : ℚ × ℚ) :
    ∀ (fuel : ℕ) (q : List ℕ) (f : Frontier) (flags : ℕ → Bool),
      (∀ i, flags i = true → (buildLoop m refw fuel q f flags).2 i = true) ∧
      (∀ p ∈ (buildLoop m refw fuel q f flags).1.points,
        p ∈ f.points ∨
        ∃ i, p = worldOfIdx m i ∧ flags i = false ∧
          (buildLoop m refw fuel q f flags).2 i = true) ∧
      (buildLoop m refw fuel q f flags).1.initial = f.initial := by
  intro fuel
  induction fuel with
  | zero => intro q f flags; exact ⟨fun i hi => hi, fun p hp => Or.inl hp, rfl⟩
  | succ fuel ih =>
    intro q f flags
    cases q with
    | nil => exact ⟨fun i hi => hi, fun p hp => Or.inl hp, rfl⟩
    | cons idx q =>
      obtain ⟨sm, sp, si⟩ := buildFold_flags m refw (nhood8 m idx) (f, flags, [])
      obtain ⟨fm, fp, fi⟩ := ih (q ++ ((nhood8 m idx).foldl (buildStep m refw) (f, flags, [])).2.2)
        ((nhood8 m idx).foldl (buildStep m refw) (f, flags, [])).1
        ((nhood8 m idx).foldl (buildStep m refw) (f, flags, [])).2.1
      rw [buildLoop_succ]
      refine ⟨fun i hi => fm i (sm i hi), ?_, by rw [fi, si]⟩
      intro p hp
      rcases fp p hp with hp1 | ⟨i, he, h0, h1⟩
      · rcases sp p hp1 with hp2 | ⟨i, he, h0, h1⟩
        · exact Or.inl hp2
        · exact Or.inr ⟨i, he, h0, fm i h1⟩
      · have h0' : flags i = false := by
          cases hb : flags i
          · rfl
          · exact absurd (sm i hb) (by rw [h0]; simp)
        exact Or.inr ⟨i, he, h0', h1⟩

theorem buildNewFrontier_flags (m : Costmap) (init ref : ℕ) (flags : ℕ → Bool) :
    (∀ i, flags i = true → (buildNewFrontier m init ref flags).2 i = true) ∧
    (∀ p ∈ (buildNewFrontier m init ref flags).1.points,
      ∃ i, p = worldOfIdx m i ∧ flags i = false ∧
        (buildNewFrontier m init ref flags).2 i = true) ∧
    (buildNewFrontier m init ref flags).1.initial = worldOfIdx m init := by
  obtain ⟨lm, lp, li⟩ := buildLoop_flags m (worldOfIdx m ref) (m.ncells + 1) [init]
    { size := 1, sq_min_distance := none, cost := 0, initial := worldOfIdx m init,
      centroid := (0, 0), middle := (0, 0), points := [] } flags
  simp only [buildNewFrontier]
  refine ⟨lm, ?_, li⟩
  intro p hp
  rcases lp p hp with hp1 | h
  · exact absurd hp1 (List.not_mem_nil p)
  · exact h

/-- The observable effect of one frontier event (flag the seed, grow the
region): flags only grow, and every member point of the new frontier is the
world point of a cell that was unflagged before the event and is flagged
after it. -/
theorem event_flags (m : Costmap) (pos nbr : ℕ) (ff : ℕ → Bool)
    (hseed : isNewFrontierCell m nbr ff = true) :
    (∀ i, ff i = true → (buildNewFrontier m nbr pos (setFlag ff nbr)).2 i = true) ∧
    (∀ p ∈ (buildNewFrontier m nbr pos (setFlag ff nbr)).1.memberPoints,
      ∃ i, p = worldOfIdx m i ∧ ff i = false ∧
        (buildNewFrontier m nbr pos (setFlag ff nbr)).2 i = true) := by
  obtain ⟨bm, bp, bi⟩ := buildNewFrontier_flags m nbr pos (setFlag ff nbr)
  constructor
  · exact fun i hi => bm i (setFlag_mono _ _ _ hi)
  · intro p hp
    rcases List.mem_cons.1 hp with hp | hp
    · refine ⟨nbr, by rw [hp, bi], isNewFrontierCell_unflagged hseed,
        bm nbr (setFlag_self _ _)⟩
    · obtain ⟨i, he, h0, h1⟩ := bp p hp
      exact ⟨i, he, setFlag_false h0, h1⟩

theorem outerStep_disj (m : Costmap) (minsz : ℚ) (pos idx : ℕ)
    (hres : m.resolution ≠ 0)
    (st : (ℕ → Bool) × (ℕ → Bool) × List Frontier × List ℕ) (nbr : ℕ)
    (h : DisjInv m st.2.2.1 st.2.1) :
    DisjInv m (outerStep m minsz pos idx st nbr).2.2.1
      (outerStep m minsz pos idx st nbr).2.1 := by
  obtain ⟨hpw, hflag⟩ := h
  simp only [outerStep]
  split_ifs with h1 h2 h3
  · exact ⟨hpw, hflag⟩
  · -- frontier event, region kept
    obtain ⟨em, ep⟩ := event_flags m pos nbr st.2.1 h2
    constructor
    · rw [List.pairwise_append]
      refine ⟨hpw, List.pairwise_singleton _ _, ?_⟩
      intro f hf g hg
      rw [List.mem_singleton] at hg
      subst hg
      intro p hpf hpr
      obtain ⟨i, hei, hfi⟩ := hflag f hf p hpf
      obtain ⟨j, hej, hj0, _⟩ := ep p hpr
      have hij : i = j := worldOfIdx_inj m hres (by rw [← hei, ← hej])
      rw [hij, hj0] at hfi
      exact absurd hfi (by simp)
    · intro f hf p hp
      rcases List.mem_append.1 hf with hf | hf
      · obtain ⟨i, hei, hfi⟩ := hflag f hf p hp
        exact ⟨i, hei, em i hfi⟩
      · rw [List.mem_singleton] at hf
        subst hf
        obtain ⟨i, hei, _, hfi⟩ := ep p hp
        exact ⟨i, hei, hfi⟩
  · -- frontier event, region discarded: flags still grow
    obtain ⟨em, _⟩ := event_flags m pos nbr st.2.1 h2
    refine ⟨hpw, ?_⟩
    intro f hf p hp
    obtain ⟨i, hei, hfi⟩ := hflag f hf p hp
    exact ⟨i, hei, em i hfi⟩
  · exact ⟨hpw, hflag⟩

theorem outerFold_disj (m : Costmap) (minsz : ℚ) (pos idx : ℕ)
    (hres : m.resolution ≠ 0) :
    ∀ (ns : List ℕ) (st : (ℕ → Bool) × (ℕ → Bool) × List Frontier × List ℕ),
      DisjInv m st.2.2.1 st.2.1 →
      DisjInv m ((ns.foldl (outerStep m minsz pos idx) st).2.2.1)
        ((ns.foldl (outerStep m minsz pos idx) st).2.1) := by
  intro ns
  induction ns with
  | nil => intro st h; exact h
  | cons n ns ih => intro st h; exact ih _ (outerStep_disj m minsz pos idx hres st n h)

theorem searchLoop_disj (m : Costmap) (minsz : ℚ) (pos : ℕ) (hres : m.resolution ≠ 0) :
    ∀ (fuel : ℕ) (q : List ℕ) (v ff : ℕ → Bool) (acc : List Frontier),
      DisjInv m acc ff →
      List.Pairwise (fun f g => PtsDisjoint f.memberPoints g.memberPoints)
        (searchLoop m minsz pos fuel q v ff acc) := by
  intro fuel
  induction fuel with
  | zero => intro q v ff acc h; exact h.1
  | succ fuel ih =>
    intro q v ff acc h
    cases q with
    | nil => exact h.1
    | cons idx q =>
      show List.Pairwise _ (searchLoop m minsz pos fuel _ _ _ _)
      exact ih _ _ _ _ (outerFold_disj m minsz pos idx hres (nhood4 m idx) (v, ff, acc, []) h)

theorem searchFromRegions_disj (m : Costmap) (minsz : ℚ) (pos : ℚ × ℚ)
    (hres : m.resolution ≠ 0) :
    List.Pairwise (fun f g => PtsDisjoint f.memberPoints g.memberPoints)
      (searchFromRegions m minsz pos) := by
  unfold searchFromRegions
  cases hw : worldToMap m pos.1 pos.2 with
  | none => exact List.Pairwise.nil
  | some c =>
    exact searchLoop_disj m minsz (getIndex m c.1 c.2) hres _ _ _ _ []
      ⟨List.Pairwise.nil, fun f hf => absurd hf (List.not_mem_nil f)⟩

theorem ptsDisjoint_symm : ∀ {P Q : List (ℚ × ℚ)}, PtsDisjoint P Q → PtsDisjoint Q P :=
  fun h q hqQ hqP => h q hqP hqQ

theorem assignCosts_map_member (m : Costmap) (cfg : SearchCfg) (pose : ℚ × ℚ)
    (noise : ℕ → ℝ) :
    ∀ (fs : List Frontier) (k : ℕ) (s : CostState),
      (assignCosts m cfg pose noise k fs s).1.map Frontier.memberPoints =
        fs.map Frontier.memberPoints := by
  intro fs
  induction fs with
  | nil => intro k s; rfl
  | cons f fs ih =>
    intro k s
    show Frontier.memberPoints { f with cost := _ } :: _ = _
    rw [List.map_cons]
    exact congrArg (_ :: ·) (ih (k + 1) _)

/-- C4: within a single `searchFrom` call no world point — hence, resolution
being nonzero, no grid cell — is a member of more than one returned frontier:
the member-point lists of the returned frontiers are pairwise disjoint. -/
theorem c4_disjoint_members (m : Costmap) (cfg : SearchCfg) (pos : ℚ × ℚ)
    (noise : ℕ → ℝ) (s : CostState) (hres : 0 < m.resolution) :
    List.Pairwise PtsDisjoint
      ((searchFrom m cfg pos noise s).frontiers.map Frontier.memberPoints) := by
  have hreg : List.Pairwise PtsDisjoint
      ((searchFromRegions m cfg.min_frontier_size pos).map Frontier.memberPoints) := by
    rw [List.pairwise_map]
    exact searchFromRegions_disj m cfg.min_frontier_size pos (ne_of_gt hres)
  unfold searchFrom
  cases hw : worldToMap m pos.1 pos.2 with
  | none => exact List.Pairwise.nil
  | some c =>
    show List.Pairwise PtsDisjoint ((sortByCost _).map Frontier.memberPoints)
    have hperm : ((sortByCost
        (assignCosts m cfg pos noise 0 (searchFromRegions m cfg.min_frontier_size pos) s).1).map
          Frontier.memberPoints).Perm
        ((assignCosts m cfg pos noise 0 (searchFromRegions m cfg.min_frontier_size pos) s).1.map
          Frontier.memberPoints) :=
      (sortByCost_perm _).map Frontier.memberPoints
    rw [List.Perm.pairwise_iff (fun h => ptsDisjoint_symm h) hperm,
      assignCosts_map_member]
    exact hreg

theorem c4_disjoint_members_witness :
    (0 : ℚ) < mapA.resolution ∧
    List.Pairwise PtsDisjoint
      ((searchFrom mapA cfgA posA noiseA initialCostState).frontiers.map
        Frontier.memberPoints) :=
  ⟨by decide, c4_disjoint_members mapA cfgA posA noiseA initialCostState (by decide)⟩

end FrontierSim
